import Mathlib

/-!
Verification development for the `symbolica` expression-graph engine.

The Rust sources are shallowly embedded here:
- `src/constants.rs` : the `Value` leaf type, its `Hash` and `Display` impls;
- `src/symbols.rs` : `OperationKind`, `Operation`, `OpArgumentKind`, `OpArgument`,
  structural hashing, and the precedence-aware `Display` renderer;
- `src/operation_properties.rs` : operator metadata (`argcount`, `is_infix`,
  `is_prefix`, `associativity`, `eval`, `eval_fn`) and `Ord for OperationKind`;
- `src/operations.rs` : the builder layer (operator overloads, `pow`, `ln`,
  `exp`, `sin`, `cos`, `construct_oparg`);
- `src/equivalencies.rs` : `hash_oparg` and the `EquivalenceGraph` seed.

Modelling conventions:
- Rust `u64` values are `Nat`; the only place overflow could matter is the
  hasher state, which is reduced `% 2^64` at every step.
- A panic (`panic!`, `assert_eq!`, out-of-bounds index) is modelled as `none`
  of an `Option` result.
- The third-party `ahash::AHasher` is not code of this repository; it is
  modelled as a pure fold over the exact sequence of `write_u32` / `write_u64`
  / `write` calls the repository performs.  Every claim below depends only on
  that write sequence and on the finish function being a pure function of it,
  never on concrete ahash output values.
- `Arc` sharing and the `OnceCell` memoisation are modelled by an explicit
  `Option Nat` cache field on `OpArgument`; `OnceCell::get_or_init` is the
  pure read-or-compute function `OpArgument.hash`.
-/

/-- Embedding of `enum OperationKind` from `src/symbols.rs`. -/
inductive OperationKind : Type where
  | Addition
  | Subtraction
  | Multiplication
  | Division
  | Negation
  | Pow
  | Exp
  | Sin
  | Cos
  | Tan
  | Ln
deriving DecidableEq, Repr

/-- Embedding of `enum Value` from `src/constants.rs`.  The Rust denominator
field has type `NonZeroU64`; its nonzeroness is not used by any claim, so it
is carried as a plain `Nat` here (`den` stands for `den.get()`). -/
inductive Value : Type where
  | Rational (num : Nat) (den : Nat)
  | Pi
  | E
  | I
  | Inf
  | Variable (name : String)
deriving DecidableEq, Repr

/-- Embedding of `enum Associativity` from `src/operation_properties.rs`. -/
inductive Associativity : Type where
  | Left
  | Right
  | Neither
deriving DecidableEq, Repr

namespace OperationKind

/-- Embedding of `OperationKind::is_infix` (`src/operation_properties.rs`). -/
def isInfixForm : OperationKind → Bool
  | Addition | Subtraction | Multiplication | Division | Pow => true
  | _ => false

/-- Embedding of `OperationKind::argcount` (`src/operation_properties.rs`). -/
def argcount : OperationKind → Nat
  | Negation => 1
  | Addition | Subtraction | Multiplication | Division | Pow => 2
  | Exp | Sin | Cos | Tan | Ln => 1

/-- Embedding of `OperationKind::is_prefix` (`src/operation_properties.rs`). -/
def isPrefixForm : OperationKind → Bool
  | Negation => true
  | _ => false

/-- Embedding of `OperationKind::associativity` (`src/operation_properties.rs`). -/
def associativity : OperationKind → Associativity
  | Pow => .Right
  | Addition | Subtraction | Multiplication | Division => .Left
  | Negation | Exp | Sin | Cos | Tan | Ln => .Neither

/-- Embedding of the closure table `OperationKind::eval_fn`
(`src/operation_properties.rs`).  Each Rust closure indexes into the slice
(`a[0]`, `a[1]`); an out-of-bounds index is a panic, modelled as `none`. -/
def evalFn : OperationKind → List Float → Option Float
  | Addition, a => do pure ((← a.get? 0) + (← a.get? 1))
  | Subtraction, a => do pure ((← a.get? 0) - (← a.get? 1))
  | Multiplication, a => do pure ((← a.get? 0) * (← a.get? 1))
  | Division, a => do pure ((← a.get? 0) / (← a.get? 1))
  | Negation, a => do pure (-(← a.get? 0))
  | Pow, a => do pure (Float.pow (← a.get? 0) (← a.get? 1))
  | Exp, a => do pure (Float.exp (← a.get? 0))
  | Sin, a => do pure (Float.sin (← a.get? 0))
  | Cos, a => do pure (Float.cos (← a.get? 0))
  | Tan, a => do pure (Float.tan (← a.get? 0))
  | Ln, a => do pure (Float.log (← a.get? 0))

/-- Embedding of `OperationKind::eval` (`src/operation_properties.rs`): the
`assert_eq!(self.argcount(), a.len(), ...)` panic is the `none` branch. -/
def eval (k : OperationKind) (a : List Float) : Option Float :=
  if k.argcount = a.length then k.evalFn a else none

/-- Embedding of `impl Ord for OperationKind` (`src/operation_properties.rs`);
Rust `Ordering::Less`/`Equal`/`Greater` are `Ordering.lt`/`.eq`/`.gt`. -/
def cmp (a b : OperationKind) : Ordering :=
  match a with
  | Addition | Subtraction =>
    match b with
    | Addition | Subtraction => .eq
    | _ => .gt
  | Multiplication | Division =>
    match b with
    | Addition | Subtraction => .lt
    | Multiplication | Division => .eq
    | _ => .gt
  | _ =>
    match b with
    | Addition | Subtraction | Multiplication | Division => .lt
    | _ => .eq

/-- Embedding of `impl Display for OperationKind` (`src/symbols.rs`). -/
def symbol : OperationKind → String
  | Addition => "+"
  | Subtraction => "-"
  | Multiplication => "*"
  | Division => "/"
  | Negation => "-"
  | Pow => "^"
  | Exp => "exp"
  | Sin => "sin"
  | Cos => "cos"
  | Tan => "tan"
  | Ln => "ln"

end OperationKind

/-- Precedence class of an operator, written from the spec's words (§3/§4.2):
the additive class `{Add,Sub}` is lowest (0), the multiplicative class
`{Mul,Div}` is middle (1), and `{Pow, Negation, Exp, Sin, Cos, Tan, Ln}` is
highest (2).  This is the spec-side definition used to judge `cmp`. -/
def precClass : OperationKind → Nat
  | .Addition | .Subtraction => 0
  | .Multiplication | .Division => 1
  | _ => 2

/-- Write events performed against the hasher.  `writeU32`, `writeU64` and
`writeBytes` stand for `Hasher::write_u32`, `write_u64` and `write` (the
latter always receives `str.as_bytes()` in this repository, so it carries the
string). -/
inductive HashWrite : Type where
  | writeU32 (n : Nat)
  | writeU64 (n : Nat)
  | writeBytes (s : String)
deriving DecidableEq, Repr

/-- Injection of one write event into the hasher state update.  The byte
payload of `writeBytes` is folded over the string's characters. -/
def encodeWrite : HashWrite → Nat
  | .writeU32 n => Nat.pair 0 n
  | .writeU64 n => Nat.pair 1 n
  | .writeBytes s => Nat.pair 2 (s.data.foldl (fun a c => (a * 1114112 + c.toNat + 1) % 2 ^ 64) 0)

/-- Model of one absorption step of the 64-bit hasher state (see the module
comment: `ahash::AHasher` is third-party code; any pure state update works
for the claims, since they only concern the sequence of writes). -/
def hasherStep (acc : Nat) (w : HashWrite) : Nat :=
  Nat.pair acc (encodeWrite w) % 2 ^ 64

/-- Model of running a fresh `OpHasher::default()` over a write sequence and
calling `finish()`. -/
def hasherFinish (l : List HashWrite) : Nat :=
  l.foldl hasherStep 0

mutual

/-- Embedding of `struct Operation` (`src/symbols.rs`): an `OperationKind`
plus its argument list (`StackVec<OpArgument>`; inline capacity is a layout
detail and is dropped). -/
inductive Operation : Type where
  | mk (op : OperationKind) (arguments : List OpArgument)

/-- Embedding of `enum OpArgumentKind` (`src/symbols.rs`); `Arc` indirection
is dropped (it only affects sharing, not values). -/
inductive OpArgumentKind : Type where
  | Op (op : Operation)
  | Leaf (v : Value)

/-- Embedding of `struct OpArgument` (`src/symbols.rs`): the node payload plus
the `OnceCell<u64>` hash cache, modelled as `Option Nat`. -/
inductive OpArgument : Type where
  | mk (value : OpArgumentKind) (hash : Option Nat)

end

/-- Projection for the `op` field of `Operation`. -/
def Operation.op : Operation → OperationKind
  | .mk k _ => k

/-- Projection for the `arguments` field of `Operation`. -/
def Operation.arguments : Operation → List OpArgument
  | .mk _ a => a

/-- Projection for the `value` field of `OpArgument`. -/
def OpArgument.value : OpArgument → OpArgumentKind
  | .mk v _ => v

/-- Projection for the `hash` cache field of `OpArgument`. -/
def OpArgument.cache : OpArgument → Option Nat
  | .mk _ c => c

/-- Numeric opcode assigned to each kind by `impl Hash for Operation`
(`src/symbols.rs`). -/
def opcode : OperationKind → Nat
  | .Addition => 1
  | .Subtraction => 2
  | .Multiplication => 3
  | .Division => 4
  | .Negation => 5
  | .Pow => 6
  | .Exp => 7
  | .Sin => 8
  | .Cos => 9
  | .Tan => 10
  | .Ln => 11

/-- Embedding of `impl Hash for Value` (`src/constants.rs`): write the
discriminant code, then the rational payload or the variable name bytes. -/
def Value.hashWrites (v : Value) : List HashWrite :=
  let disc : Nat :=
    match v with
    | .Rational _ _ => 0
    | .Pi => 1
    | .E => 2
    | .I => 3
    | .Inf => 4
    | .Variable _ => 5
  HashWrite.writeU32 disc ::
    (match v with
     | .Rational num den => [HashWrite.writeU64 num, HashWrite.writeU64 den]
     | .Variable s => [HashWrite.writeBytes s]
     | _ => [])

mutual

/-- Embedding of `impl Hash for Operation` (`src/symbols.rs`): write the
opcode, the argument count, then each child's own cached hash in order. -/
def Operation.hashWrites : Operation → List HashWrite
  | .mk op args =>
    HashWrite.writeU32 (opcode op) :: HashWrite.writeU64 args.length :: hashWritesOfArgs args

/-- Helper for the `self.arguments.iter().for_each(|e| state.write_u64(e.hash()))`
loop in `impl Hash for Operation`. -/
def hashWritesOfArgs : List OpArgument → List HashWrite
  | [] => []
  | a :: as => HashWrite.writeU64 a.hash :: hashWritesOfArgs as

/-- Embedding of `hash_oparg` (`src/equivalencies.rs`), inlining `hash_op`
and `hash_leaf` (the `dbg!` logging is dropped). -/
def hashOparg : OpArgumentKind → List HashWrite
  | .Op op => op.hashWrites
  | .Leaf leaf => leaf.hashWrites

/-- Embedding of `OpArgument::hash` (`src/symbols.rs`): `get_or_init` returns
the cached value when present, otherwise runs `hash_oparg` on a fresh hasher
and finishes it. -/
def OpArgument.hash : OpArgument → Nat
  | .mk v c =>
    match c with
    | some h => h
    | none => hasherFinish (hashOparg v)

end

/-- Embedding of `impl PartialEq for OpArgument` (`src/symbols.rs`):
equality is hash equality. -/
def OpArgument.beq (a b : OpArgument) : Bool :=
  a.hash == b.hash

/-- Embedding of `impl Display for Value` (`src/constants.rs`). -/
def Value.render : Value → String
  | .Rational num denom => Nat.repr num ++ "/" ++ Nat.repr denom
  | .Pi => "π"
  | .E => "e"
  | .I => "i"
  | .Inf => "∞"
  | .Variable v => v

mutual

/-- Embedding of `impl Display for Operation` (`src/symbols.rs`).  The first
branch is the arity-mismatch `panic!`; the `is_prefix` branch compares the
parent against the single child; the `is_infix` branch (with its
`assert_eq!(argcount, 2)`) decides parenthesisation per side; the final
branch renders function style with comma separation.  `none` models a panic
anywhere (including slice indexing and panics in recursive child renders),
and `Option.bind` sequencing models the propagation of a panic raised while
rendering a child. -/
def Operation.render : Operation → Option String
  | .mk op args =>
    if args.length ≠ op.argcount then
      none
    else if op.isPrefixForm then
      match args with
      | a0 :: _ =>
        let precedence : Ordering :=
          match a0.value with
          | .Op o => op.cmp o.op
          | _ => .gt
        (match precedence with
         | .lt | .eq => Option.bind a0.render (fun s => some (op.symbol ++ "(" ++ s ++ ")"))
         | .gt => Option.bind a0.render (fun s => some (op.symbol ++ s)))
      | [] => none
    else if op.isInfixForm then
      if op.argcount ≠ 2 then
        none
      else
        match args with
        | [a0, a1] =>
          let lhs_prec : Ordering :=
            match a0.value with
            | .Op o => op.cmp o.op
            | _ => .gt
          let rhs_prec : Ordering :=
            match a1.value with
            | .Op o => op.cmp o.op
            | _ => .gt
          Option.bind
            (match lhs_prec with
             | .eq =>
               if op.associativity = .Left then a0.render
               else Option.bind a0.render (fun s => some ("(" ++ s ++ ")"))
             | .gt => a0.render
             | .lt => Option.bind a0.render (fun s => some ("(" ++ s ++ ")")))
            (fun lhs =>
              Option.bind
                (match rhs_prec with
                 | .eq =>
                   if op.associativity = .Right then a1.render
                   else Option.bind a1.render (fun s => some ("(" ++ s ++ ")"))
                 | .gt => a1.render
                 | .lt => Option.bind a1.render (fun s => some ("(" ++ s ++ ")")))
                (fun rhs => some (lhs ++ op.symbol ++ rhs)))
        | _ => none
    else
      Option.bind (renderCommaSep args) (fun s => some (op.symbol ++ "(" ++ s ++ ")"))

/-- Helper for the function-style branch of `Display for Operation`: render
the arguments separated by commas (`f.write_char(',')` after every argument
except the last). -/
def renderCommaSep : List OpArgument → Option String
  | [] => some ""
  | [a] => a.render
  | a :: a1 :: as =>
    Option.bind a.render (fun s =>
      Option.bind (renderCommaSep (a1 :: as)) (fun t => some (s ++ "," ++ t)))

/-- Embedding of `impl Display for OpArgument` (`src/symbols.rs`). -/
def OpArgument.render : OpArgument → Option String
  | .mk v _ =>
    match v with
    | .Op op => op.render
    | .Leaf val => some val.render

end

/-- Embedding of `construct_oparg` (`src/operations.rs`): copy the payload
(the `Arc` clones preserve the pointed-to values) but reset the hash cache to
a fresh empty `OnceCell`. -/
def construct_oparg (op_argument : OpArgument) : OpArgument :=
  .mk op_argument.value none

/-- Embedding of `variable` (`src/symbols.rs`); `variable` is a Lean keyword,
hence the name. -/
def variableLeaf (name : String) : OpArgument :=
  .mk (.Leaf (.Variable name)) none

/-- Embedding of `impl From<Value> for OpArgument` (`src/symbols.rs`). -/
def OpArgument.ofValue (value : Value) : OpArgument :=
  .mk (.Leaf value) none

/-- Embedding of `impl Add<OpArgument> for OpArgument` (`src/operations.rs`).
The borrowing impls (`&a + b`, `a + &b`, `&a + &b`) build the same node with
`construct_oparg` applied to each borrowed side, i.e. they are this function
composed with `construct_oparg`; the same holds for `sub`, `mul`, `div`,
`neg` below. -/
def OpArgument.add (a rhs : OpArgument) : OpArgument :=
  .mk (.Op (.mk .Addition [a, rhs])) none

/-- Embedding of `impl Sub<OpArgument> for OpArgument` (`src/operations.rs`). -/
def OpArgument.sub (a rhs : OpArgument) : OpArgument :=
  .mk (.Op (.mk .Subtraction [a, rhs])) none

/-- Embedding of `impl Mul<OpArgument> for OpArgument` (`src/operations.rs`). -/
def OpArgument.mul (a rhs : OpArgument) : OpArgument :=
  .mk (.Op (.mk .Multiplication [a, rhs])) none

/-- Embedding of `impl Div<OpArgument> for OpArgument` (`src/operations.rs`). -/
def OpArgument.div (a rhs : OpArgument) : OpArgument :=
  .mk (.Op (.mk .Division [a, rhs])) none

/-- Embedding of `impl Neg for OpArgument` (`src/operations.rs`). -/
def OpArgument.neg (a : OpArgument) : OpArgument :=
  .mk (.Op (.mk .Negation [a])) none

/-- Embedding of `OpArgument::pow` (`src/operations.rs`): both `self` and
`rhs` are borrowed, so both children go through `construct_oparg`. -/
def OpArgument.pow (a rhs : OpArgument) : OpArgument :=
  .mk (.Op (.mk .Pow [construct_oparg a, construct_oparg rhs])) none

/-- Embedding of `OpArgument::ln` (`src/operations.rs`). -/
def OpArgument.ln (a : OpArgument) : OpArgument :=
  .mk (.Op (.mk .Ln [construct_oparg a])) none

/-- Embedding of `OpArgument::exp` (`src/operations.rs`). -/
def OpArgument.exp (a : OpArgument) : OpArgument :=
  .mk (.Op (.mk .Exp [construct_oparg a])) none

/-- Embedding of `OpArgument::sin` (`src/operations.rs`). -/
def OpArgument.sin (a : OpArgument) : OpArgument :=
  .mk (.Op (.mk .Sin [construct_oparg a])) none

/-- Embedding of `OpArgument::cos` (`src/operations.rs`). -/
def OpArgument.cos (a : OpArgument) : OpArgument :=
  .mk (.Op (.mk .Cos [construct_oparg a])) none

/-- Expressions reachable through the public construction layer: `variable`,
constant leaves (`From<Value>`), the arithmetic operator overloads, the
named function builders, and the borrowed-spine copies each `&`-impl makes
via `construct_oparg`. -/
inductive Built : OpArgument → Prop where
  | var (s : String) : Built (variableLeaf s)
  | value (v : Value) : Built (OpArgument.ofValue v)
  | add {a b : OpArgument} : Built a → Built b → Built (a.add b)
  | sub {a b : OpArgument} : Built a → Built b → Built (a.sub b)
  | mul {a b : OpArgument} : Built a → Built b → Built (a.mul b)
  | div {a b : OpArgument} : Built a → Built b → Built (a.div b)
  | neg {a : OpArgument} : Built a → Built (a.neg)
  | pow {a b : OpArgument} : Built a → Built b → Built (a.pow b)
  | ln {a : OpArgument} : Built a → Built (a.ln)
  | exp {a : OpArgument} : Built a → Built (a.exp)
  | sin {a : OpArgument} : Built a → Built (a.sin)
  | cos {a : OpArgument} : Built a → Built (a.cos)
  | ref {a : OpArgument} : Built a → Built (construct_oparg a)

mutual

/-- Embedding of `OpArgument::fill_variables` (`src/symbols.rs`): descend
through operator nodes and insert every `Leaf` value into the set
(`HashSet<&Value>` keyed by `Value` equality is a `Finset Value`). -/
def OpArgument.fill_variables : OpArgument → Finset Value → Finset Value
  | .mk v _, vars =>
    match v with
    | .Op (.mk _ args) => fillVariablesList args vars
    | .Leaf value => insert value vars

/-- Helper for the `op.arguments.iter().for_each(|oparg| oparg.fill_variables(vars))`
loop in `fill_variables`. -/
def fillVariablesList : List OpArgument → Finset Value → Finset Value
  | [], vars => vars
  | a :: as, vars => fillVariablesList as (a.fill_variables vars)

end

/-- Embedding of `OpArgument::variables` (`src/symbols.rs`). -/
def OpArgument.variables (e : OpArgument) : Finset Value :=
  e.fill_variables ∅

mutual

/-- Specification-side description of `variables` (§6 of the spec: the set of
referenced `Value` leaves): the list of every leaf value occurring anywhere
in the expression, directly by recursion on the tree. -/
def leafValues : OpArgument → List Value
  | .mk v _ =>
    match v with
    | .Op (.mk _ args) => leafValuesList args
    | .Leaf value => [value]

/-- Concatenation of `leafValues` over a list of children. -/
def leafValuesList : List OpArgument → List Value
  | [] => []
  | a :: as => leafValues a ++ leafValuesList as

end

/-- Embedding of `struct EquivalenceClass` (`src/equivalencies.rs`); the
`HashSet<&OpArgument>` is carried as the list of its elements. -/
structure EquivalenceClass : Type where
  graphset : List OpArgument

/-- Embedding of `struct EquivalenceGraph` (`src/equivalencies.rs`). -/
structure EquivalenceGraph : Type where
  backing_graph : OpArgument
  eclasses : List EquivalenceClass

/-- Embedding of `impl From<&OpArgument> for EquivalenceClass`
(`src/equivalencies.rs`): insert the single expression into an empty set. -/
def EquivalenceClass.fromArg (oparg : OpArgument) : EquivalenceClass :=
  { graphset := [oparg] }

/-- Embedding of `impl From<&OpArgument> for EquivalenceGraph`
(`src/equivalencies.rs`). -/
def EquivalenceGraph.fromArg (backing_graph : OpArgument) : EquivalenceGraph :=
  { backing_graph := backing_graph
    eclasses := [EquivalenceClass.fromArg backing_graph] }

/-- Bare expression trees: the shape and leaf values of an expression with
the sharing and cache structure erased.  Used to state claims of the form
"identical tree shape and identical leaf values". -/
inductive ExprTree : Type where
  | node (k : OperationKind) (children : List ExprTree)
  | leaf (v : Value)

mutual

/-- Erase the hash caches of an expression, leaving its tree. -/
def strip : OpArgument → ExprTree
  | .mk v _ =>
    match v with
    | .Op (.mk k args) => .node k (stripList args)
    | .Leaf value => .leaf value

/-- Map of `strip` over a child list. -/
def stripList : List OpArgument → List ExprTree
  | [] => []
  | a :: as => strip a :: stripList as

end

mutual

/-- Hash of a bare tree: the value `OpArgument.hash` computes when every
cache on the corresponding expression is empty or correctly filled. -/
def ExprTree.treeHash : ExprTree → Nat
  | .node k children =>
    hasherFinish (HashWrite.writeU32 (opcode k) :: HashWrite.writeU64 children.length ::
      treeHashWrites children)
  | .leaf v => hasherFinish v.hashWrites

/-- Per-child hash writes of a bare tree, in order. -/
def treeHashWrites : List ExprTree → List HashWrite
  | [] => []
  | t :: ts => HashWrite.writeU64 t.treeHash :: treeHashWrites ts

end

mutual

/-- Cache discipline invariant: every `OnceCell` in the expression is either
still empty or holds exactly the hash `hash_oparg` computes for its node.
This is the invariant `get_or_init` maintains: cells are only ever filled
with the computed hash. -/
def goodCacheArg : OpArgument → Bool
  | .mk v c =>
    (match c with
     | none => true
     | some h => h == hasherFinish (hashOparg v)) && goodCacheKind v

/-- Cache discipline for a node payload. -/
def goodCacheKind : OpArgumentKind → Bool
  | .Op (.mk _ args) => goodCacheList args
  | .Leaf _ => true

/-- Cache discipline for a child list. -/
def goodCacheList : List OpArgument → Bool
  | [] => true
  | a :: as => goodCacheArg a && goodCacheList as

end

mutual

/-- Arity invariant (§3 of the spec): every operator node stores exactly
`argcount` children. -/
def wellArityArg : OpArgument → Bool
  | .mk v _ => wellArityKind v

/-- Arity invariant for a node payload. -/
def wellArityKind : OpArgumentKind → Bool
  | .Op (.mk k args) => (args.length == k.argcount) && wellArityList args
  | .Leaf _ => true

/-- Arity invariant for a child list. -/
def wellArityList : List OpArgument → Bool
  | [] => true
  | a :: as => wellArityArg a && wellArityList as

end

/-- Shared fact: `cmp` equals the reversed comparison of precedence classes.
`OperationKind.cmp a b` compares `precClass b` against `precClass a`, i.e. it
returns `Less` when the left kind's class is strictly ABOVE the right kind's,
and `Greater` when it is strictly below. -/
theorem lem_cmp_eq_reverse_compare (a b : OperationKind) :
    OperationKind.cmp a b = compare (precClass b) (precClass a) := by
  cases a <;> cases b <;> rfl

/-- C1 counterexample: the claim says `Addition.cmp(Multiplication) = Less`
(additive class below multiplicative class), but the code returns
`Greater`. -/
theorem C1_counterexample_cmp_add_mul :
    OperationKind.cmp .Addition .Multiplication = Ordering.gt ∧
      Ordering.gt ≠ Ordering.lt := by
  constructor
  · rfl
  · decide

/-- C1 (amended): `OperationKind.cmp` implements the REVERSE of the
precedence order on the classes `{Add,Sub} < {Mul,Div} < {Pow, Negation,
Exp, Sin, Cos, Tan, Ln}`: for every pair of kinds, `cmp` returns `Less`
exactly when the left kind's precedence class is strictly above the right
kind's, `Equal` exactly when the two are in the same class, and `Greater`
exactly when the left kind's class is strictly below the right kind's (e.g.
`Addition.cmp(Multiplication) = Greater`, `Multiplication.cmp(Pow) =
Greater`, `Addition.cmp(Subtraction) = Equal`). -/
theorem C1_cmp_reversed_precedence_order (a b : OperationKind) :
    (OperationKind.cmp a b = Ordering.lt ↔ precClass b < precClass a) ∧
      (OperationKind.cmp a b = Ordering.eq ↔ precClass a = precClass b) ∧
      (OperationKind.cmp a b = Ordering.gt ↔ precClass a < precClass b) := by
  cases a <;> cases b <;> refine ⟨⟨?_, ?_⟩, ⟨?_, ?_⟩, ⟨?_, ?_⟩⟩ <;> decide

/-- Helper for C3: the per-child write loop of `Hash for Operation` writes
exactly one `write_u64` of each child's cached hash, in order. -/
theorem lem_hashWritesOfArgs_eq_map (args : List OpArgument) :
    hashWritesOfArgs args = args.map (fun a => HashWrite.writeU64 a.hash) := by
  induction args with
  | nil => rfl
  | cons a as ih => simp [hashWritesOfArgs, ih]

/-- C3: the structural hash of an operator node writes the operator's numeric
opcode, then the argument count, then each child's own cached 64-bit hash in
argument order; a leaf writes a discriminant code for its variant, then for
`Rational` the numerator and denominator, for `Variable` the raw name bytes,
and nothing further for the nullary constants `Pi`, `E`, `I`, `Inf`.  The
node hash is the hasher finish of exactly those writes. -/
theorem C3_hash_write_layout :
    (∀ (k : OperationKind) (args : List OpArgument),
        Operation.hashWrites (.mk k args) =
          HashWrite.writeU32 (opcode k) :: HashWrite.writeU64 args.length ::
            args.map (fun a => HashWrite.writeU64 a.hash)) ∧
      (∀ v : OpArgumentKind, OpArgument.hash (.mk v none) = hasherFinish (hashOparg v)) ∧
      (∀ o : Operation, hashOparg (.Op o) = o.hashWrites) ∧
      (∀ l : Value, hashOparg (.Leaf l) = l.hashWrites) ∧
      (∀ num den : Nat,
        Value.hashWrites (.Rational num den) =
          [HashWrite.writeU32 0, HashWrite.writeU64 num, HashWrite.writeU64 den]) ∧
      Value.hashWrites .Pi = [HashWrite.writeU32 1] ∧
      Value.hashWrites .E = [HashWrite.writeU32 2] ∧
      Value.hashWrites .I = [HashWrite.writeU32 3] ∧
      Value.hashWrites .Inf = [HashWrite.writeU32 4] ∧
      (∀ s : String,
        Value.hashWrites (.Variable s) = [HashWrite.writeU32 5, HashWrite.writeBytes s]) := by
  refine ⟨?_, ?_, ?_, ?_, ?_, rfl, rfl, rfl, rfl, ?_⟩
  · intro k args
    simp [Operation.hashWrites, lem_hashWritesOfArgs_eq_map]
  · intro v; rfl
  · intro o; rfl
  · intro l; rfl
  · intro num den; rfl
  · intro s; rfl

/-- Helper for C5: with exactly `argcount` arguments the evaluator closure
never goes out of bounds. -/
theorem lem_evalFn_isSome (k : OperationKind) (a : List Float)
    (h : a.length = k.argcount) : (k.evalFn a).isSome = true := by
  cases k <;> simp only [OperationKind.argcount] at h <;>
    cases a with
    | nil => simp at h
    | cons x t =>
      cases t with
      | nil =>
        simp at h
        all_goals simp [OperationKind.evalFn]
      | cons y t2 =>
        cases t2 with
        | nil =>
          simp at h
          all_goals simp [OperationKind.evalFn]
        | cons z t3 => simp at h

/-- C5: for every kind and every argument slice, `eval` succeeds exactly when
the argument count equals `argcount`; any other count hits the
`assert_eq!` panic. -/
theorem C5_eval_succeeds_iff_arity (k : OperationKind) (a : List Float) :
    (k.eval a).isSome = true ↔ a.length = k.argcount := by
  unfold OperationKind.eval
  by_cases h : k.argcount = a.length
  · simp only [if_pos h]
    exact iff_of_true (lem_evalFn_isSome k a h.symm) h.symm
  · simp only [if_neg h, Option.isSome_none]
    exact iff_of_false (by simp) (fun hc => h hc.symm)

/-- C7: the renderer produces exactly these strings on the three concretely
built expressions: `variable("x") + variable("y")` renders as `"x+y"`,
`(variable("x") + variable("y")) * variable("z")` as `"(x+y)*z"`, and
`variable("x").pow(&variable("y")).pow(&variable("z"))` as `"(x^y)^z"`. -/
theorem C7_concrete_renderings :
    ((variableLeaf "x").add (variableLeaf "y")).render = some "x+y" ∧
      (((variableLeaf "x").add (variableLeaf "y")).mul (variableLeaf "z")).render =
        some "(x+y)*z" ∧
      (((variableLeaf "x").pow (variableLeaf "y")).pow (variableLeaf "z")).render =
        some "(x^y)^z" := by
  refine ⟨rfl, rfl, rfl⟩

/-- C9: the equivalence graph built by `From<&OpArgument>` stores the given
expression as its backing root and holds exactly one equivalence class whose
set holds exactly one element, the root itself. -/
theorem C9_equivalence_graph_singleton_seed (e : OpArgument) :
    (EquivalenceGraph.fromArg e).backing_graph = e ∧
      (EquivalenceGraph.fromArg e).eclasses.map EquivalenceClass.graphset = [[e]] := by
  exact ⟨rfl, rfl⟩

mutual

/-- Shared fact: membership after `fill_variables` is membership in the
accumulator or in the leaf values of the expression. -/
theorem lem_fill_variables_mem (e : OpArgument) (s : Finset Value) (v : Value) :
    v ∈ e.fill_variables s ↔ v ∈ s ∨ v ∈ leafValues e := by
  obtain ⟨val, c⟩ := e
  cases val with
  | Op o =>
    obtain ⟨k, args⟩ := o
    simpa [OpArgument.fill_variables, leafValues] using lem_fill_variables_list_mem args s v
  | Leaf value =>
    simp [OpArgument.fill_variables, leafValues, Finset.mem_insert, or_comm]

/-- Shared fact: list version of `lem_fill_variables_mem`. -/
theorem lem_fill_variables_list_mem (args : List OpArgument) (s : Finset Value) (v : Value) :
    v ∈ fillVariablesList args s ↔ v ∈ s ∨ v ∈ leafValuesList args := by
  cases args with
  | nil => simp [fillVariablesList, leafValuesList]
  | cons a as =>
    rw [fillVariablesList, lem_fill_variables_list_mem as (a.fill_variables s) v]
    rw [lem_fill_variables_mem a s v]
    simp [leafValuesList, or_assoc]

end

/-- C8: `variables` returns exactly the set of leaf `Value` nodes referenced
anywhere in the expression (order-independent, duplicates collapsed); in
particular `variable("x").cos()` has `variables()` equal to the singleton
set containing `Variable("x")`. -/
theorem C8_variables_exactly_leaf_set :
    (∀ (e : OpArgument) (v : Value), v ∈ e.variables ↔ v ∈ leafValues e) ∧
      ((variableLeaf "x").cos).variables = {Value.Variable "x"} := by
  constructor
  · intro e v
    rw [OpArgument.variables, lem_fill_variables_mem]
    simp
  · rfl

/-- C10: `variables` collects every leaf `Value`, not only `Variable` leaves:
any constant leaf (`Pi`, `E`, `I`, `Inf`, or a `Rational`) occurring in the
expression is in the returned set. -/
theorem C10_variables_contains_constant_leaves (e : OpArgument) (c : Value)
    (h : c ∈ leafValues e) : c ∈ e.variables := by
  rw [OpArgument.variables, lem_fill_variables_mem]
  exact Or.inr h

/-- C10 witness: `(variable("x") + Value::Pi.into())` has both `Pi` and
`Variable("x")` among its leaves, and `variables()` contains both. -/
theorem C10_witness :
    (Value.Pi ∈ leafValues ((variableLeaf "x").add (OpArgument.ofValue .Pi)) ∧
        Value.Pi ∈ ((variableLeaf "x").add (OpArgument.ofValue .Pi)).variables) ∧
      Value.Variable "x" ∈ leafValues ((variableLeaf "x").add (OpArgument.ofValue .Pi)) ∧
        Value.Variable "x" ∈ ((variableLeaf "x").add (OpArgument.ofValue .Pi)).variables := by
  refine ⟨⟨by decide, C10_variables_contains_constant_leaves _ _ (by decide)⟩,
    by decide, C10_variables_contains_constant_leaves _ _ (by decide)⟩

/-- Shared fact: `stripList` preserves the number of children. -/
theorem lem_stripList_length (args : List OpArgument) :
    (stripList args).length = args.length := by
  induction args with
  | nil => rfl
  | cons a as ih => simp [stripList, ih]

mutual

/-- Shared fact: under the cache discipline, `OpArgument::hash` computes the
purely structural hash of the underlying tree — the cached cells change
nothing. -/
theorem lem_hash_eq_treeHash (e : OpArgument) (h : goodCacheArg e = true) :
    e.hash = (strip e).treeHash := by
  obtain ⟨v, c⟩ := e
  simp only [goodCacheArg, Bool.and_eq_true] at h
  obtain ⟨hc, hv⟩ := h
  have hbody : hasherFinish (hashOparg v) = (strip (.mk v c)).treeHash := by
    cases v with
    | Op o =>
      obtain ⟨k, args⟩ := o
      simp only [goodCacheKind] at hv
      simp only [hashOparg, Operation.hashWrites, strip, ExprTree.treeHash,
        lem_stripList_length, lem_hashWritesOfArgs_eq_treeHashWrites args hv]
    | Leaf val => rfl
  cases c with
  | none => simpa [OpArgument.hash] using hbody
  | some hval =>
    simp only [beq_iff_eq] at hc
    simpa [OpArgument.hash, hc] using hbody

/-- Shared fact: list version of `lem_hash_eq_treeHash`. -/
theorem lem_hashWritesOfArgs_eq_treeHashWrites (args : List OpArgument)
    (h : goodCacheList args = true) :
    hashWritesOfArgs args = treeHashWrites (stripList args) := by
  cases args with
  | nil => rfl
  | cons a as =>
    simp only [goodCacheList, Bool.and_eq_true] at h
    rw [hashWritesOfArgs, stripList, treeHashWrites,
      lem_hash_eq_treeHash a h.1, lem_hashWritesOfArgs_eq_treeHashWrites as h.2]

end

/-- Shared fact: the borrowed-spine copy `construct_oparg` preserves the
cache discipline (it resets the top cell to empty). -/
theorem lem_construct_goodCache (a : OpArgument) (h : goodCacheArg a = true) :
    goodCacheArg (construct_oparg a) = true := by
  obtain ⟨v, c⟩ := a
  simp only [construct_oparg, OpArgument.value, goodCacheArg, Bool.and_eq_true] at h ⊢
  exact ⟨trivial, h.2⟩

/-- Shared fact: every expression reachable through the public builders has
every hash cache empty or correctly filled. -/
theorem lem_built_goodCache (e : OpArgument) (h : Built e) : goodCacheArg e = true := by
  induction h with
  | var s => rfl
  | value v => rfl
  | add ha hb iha ihb =>
    simp only [OpArgument.add, goodCacheArg, goodCacheKind, goodCacheList, Bool.and_eq_true]
    exact ⟨trivial, iha, ihb, trivial⟩
  | sub ha hb iha ihb =>
    simp only [OpArgument.sub, goodCacheArg, goodCacheKind, goodCacheList, Bool.and_eq_true]
    exact ⟨trivial, iha, ihb, trivial⟩
  | mul ha hb iha ihb =>
    simp only [OpArgument.mul, goodCacheArg, goodCacheKind, goodCacheList, Bool.and_eq_true]
    exact ⟨trivial, iha, ihb, trivial⟩
  | div ha hb iha ihb =>
    simp only [OpArgument.div, goodCacheArg, goodCacheKind, goodCacheList, Bool.and_eq_true]
    exact ⟨trivial, iha, ihb, trivial⟩
  | neg ha iha =>
    simp only [OpArgument.neg, goodCacheArg, goodCacheKind, goodCacheList, Bool.and_eq_true]
    exact ⟨trivial, iha, trivial⟩
  | pow ha hb iha ihb =>
    simp only [OpArgument.pow, goodCacheArg, goodCacheKind, goodCacheList, Bool.and_eq_true]
    exact ⟨trivial, lem_construct_goodCache _ iha, lem_construct_goodCache _ ihb, trivial⟩
  | ln ha iha =>
    simp only [OpArgument.ln, goodCacheArg, goodCacheKind, goodCacheList, Bool.and_eq_true]
    exact ⟨trivial, lem_construct_goodCache _ iha, trivial⟩
  | exp ha iha =>
    simp only [OpArgument.exp, goodCacheArg, goodCacheKind, goodCacheList, Bool.and_eq_true]
    exact ⟨trivial, lem_construct_goodCache _ iha, trivial⟩
  | sin ha iha =>
    simp only [OpArgument.sin, goodCacheArg, goodCacheKind, goodCacheList, Bool.and_eq_true]
    exact ⟨trivial, lem_construct_goodCache _ iha, trivial⟩
  | cos ha iha =>
    simp only [OpArgument.cos, goodCacheArg, goodCacheKind, goodCacheList, Bool.and_eq_true]
    exact ⟨trivial, lem_construct_goodCache _ iha, trivial⟩
  | ref ha iha =>
    exact lem_construct_goodCache _ iha

/-- C4: hashing is deterministic and purely structural.  Expressions built
through the public builders satisfy the cache discipline, and any two
expressions satisfying it (however independently constructed, with whatever
mix of by-value and by-reference builders, and whether or not some of their
`OnceCell`s were already filled by earlier `hash()` calls) that have
identical tree shape and identical leaf values have equal `hash()` values
and therefore compare `==`. -/
theorem C4_hash_deterministic_structural_equality :
    (∀ e : OpArgument, Built e → goodCacheArg e = true) ∧
      (∀ a b : OpArgument, goodCacheArg a = true → goodCacheArg b = true →
        strip a = strip b → a.hash = b.hash ∧ a.beq b = true) := by
  constructor
  · exact lem_built_goodCache
  · intro a b ha hb hs
    have h1 : a.hash = b.hash := by
      rw [lem_hash_eq_treeHash a ha, lem_hash_eq_treeHash b hb, hs]
    exact ⟨h1, by simp [OpArgument.beq, h1]⟩

/-- C4 witness: a by-value copy of `variable("x") + variable("y")` and an
independently constructed copy (borrowed spine, and with the hash of its
`"y"` leaf already computed and cached) hash identically and compare equal. -/
theorem C4_witness :
    goodCacheArg ((variableLeaf "x").add (variableLeaf "y")) = true ∧
      goodCacheArg
        (OpArgument.add (construct_oparg (variableLeaf "x"))
          (OpArgument.mk (.Leaf (.Variable "y"))
            (some (hasherFinish (Value.hashWrites (.Variable "y")))))) = true ∧
      ((variableLeaf "x").add (variableLeaf "y")).hash =
          (OpArgument.add (construct_oparg (variableLeaf "x"))
            (OpArgument.mk (.Leaf (.Variable "y"))
              (some (hasherFinish (Value.hashWrites (.Variable "y")))))).hash ∧
        ((variableLeaf "x").add (variableLeaf "y")).beq
          (OpArgument.add (construct_oparg (variableLeaf "x"))
            (OpArgument.mk (.Leaf (.Variable "y"))
              (some (hasherFinish (Value.hashWrites (.Variable "y")))))) = true := by
  refine ⟨C4_hash_deterministic_structural_equality.1 _
      (Built.add (Built.var "x") (Built.var "y")),
    by decide,
    C4_hash_deterministic_structural_equality.2 _ _ (by decide) (by decide) rfl⟩

/-- Shared fact: definitional unfolding of the renderer at a one-argument
node (kept as an explicit lemma because the automatically generated
unfolding equations of the mutual renderer are impractically large). -/
theorem lem_render_mk1 (k : OperationKind) (a0 : OpArgument) :
    Operation.render (.mk k [a0]) =
      (if (1 : Nat) ≠ k.argcount then none
       else if k.isPrefixForm then
        (match (match a0.value with | .Op o => k.cmp o.op | _ => Ordering.gt) with
         | .lt | .eq => Option.bind a0.render (fun s => some (k.symbol ++ "(" ++ s ++ ")"))
         | .gt => Option.bind a0.render (fun s => some (k.symbol ++ s)))
       else if k.isInfixForm then
         if k.argcount ≠ 2 then none else none
       else
         Option.bind (renderCommaSep [a0]) (fun s => some (k.symbol ++ "(" ++ s ++ ")"))) := rfl

/-- Shared fact: definitional unfolding of the renderer at a two-argument
node. -/
theorem lem_render_mk2 (k : OperationKind) (a0 a1 : OpArgument) :
    Operation.render (.mk k [a0, a1]) =
      (if (2 : Nat) ≠ k.argcount then none
       else if k.isPrefixForm then
        (match (match a0.value with | .Op o => k.cmp o.op | _ => Ordering.gt) with
         | .lt | .eq => Option.bind a0.render (fun s => some (k.symbol ++ "(" ++ s ++ ")"))
         | .gt => Option.bind a0.render (fun s => some (k.symbol ++ s)))
       else if k.isInfixForm then
         if k.argcount ≠ 2 then none
         else
           Option.bind
             (match (match a0.value with | .Op o => k.cmp o.op | _ => Ordering.gt) with
              | .eq =>
                if k.associativity = .Left then a0.render
                else Option.bind a0.render (fun s => some ("(" ++ s ++ ")"))
              | .gt => a0.render
              | .lt => Option.bind a0.render (fun s => some ("(" ++ s ++ ")")))
             (fun lhs =>
               Option.bind
                 (match (match a1.value with | .Op o => k.cmp o.op | _ => Ordering.gt) with
                  | .eq =>
                    if k.associativity = .Right then a1.render
                    else Option.bind a1.render (fun s => some ("(" ++ s ++ ")"))
                  | .gt => a1.render
                  | .lt => Option.bind a1.render (fun s => some ("(" ++ s ++ ")")))
                 (fun rhs => some (lhs ++ k.symbol ++ rhs)))
       else
         Option.bind (renderCommaSep [a0, a1])
           (fun s => some (k.symbol ++ "(" ++ s ++ ")"))) := rfl

/-- Shared fact: the prefix branch of the renderer succeeds whenever its
single child renders. -/
theorem lem_render_shape_pre (k : OperationKind) (hk : k.isPrefixForm = true)
    (hk1 : k.argcount = 1) (a0 : OpArgument) (h0 : a0.render.isSome = true) :
    (Operation.render (.mk k [a0])).isSome = true := by
  obtain ⟨s0, hs0⟩ := Option.isSome_iff_exists.mp h0
  rw [lem_render_mk1]
  simp only [hk, hk1, ne_eq, not_true_eq_false, if_false, if_true, ite_false, ite_true]
  repeat' split
  all_goals simp [hs0]

/-- Shared fact: the infix branch of the renderer succeeds whenever both
children render. -/
theorem lem_render_shape_binary (k : OperationKind) (hk : k.isInfixForm = true)
    (hk2 : k.argcount = 2) (hp : k.isPrefixForm = false) (a0 a1 : OpArgument)
    (h0 : a0.render.isSome = true) (h1 : a1.render.isSome = true) :
    (Operation.render (.mk k [a0, a1])).isSome = true := by
  obtain ⟨s0, hs0⟩ := Option.isSome_iff_exists.mp h0
  obtain ⟨s1, hs1⟩ := Option.isSome_iff_exists.mp h1
  rw [lem_render_mk2]
  simp only [hk, hk2, hp, ne_eq, not_true_eq_false, if_false, if_true, ite_false, ite_true,
    Bool.false_eq_true]
  repeat' split
  all_goals simp [hs0, hs1]

/-- Shared fact: the function-style branch of the renderer succeeds on a
single rendering child. -/
theorem lem_render_shape_func (k : OperationKind) (hi : k.isInfixForm = false)
    (hk1 : k.argcount = 1) (hp : k.isPrefixForm = false) (a0 : OpArgument)
    (h0 : a0.render.isSome = true) :
    (Operation.render (.mk k [a0])).isSome = true := by
  obtain ⟨s0, hs0⟩ := Option.isSome_iff_exists.mp h0
  rw [lem_render_mk1]
  simp only [hi, hk1, hp, ne_eq, not_true_eq_false, if_false, if_true, ite_false, ite_true,
    Bool.false_eq_true]
  simp [renderCommaSep, hs0]

mutual

/-- Shared fact: an operation node satisfying the arity invariant renders
without hitting any panic. -/
theorem lem_render_op_isSome (o : Operation) (h : wellArityKind (.Op o) = true) :
    o.render.isSome = true := by
  obtain ⟨k, args⟩ := o
  simp only [wellArityKind, Bool.and_eq_true, beq_iff_eq] at h
  obtain ⟨hlen, hwl⟩ := h
  rcases args with _ | ⟨a0, _ | ⟨a1, _ | ⟨a2, rest⟩⟩⟩ <;>
    cases k <;>
      simp only [OperationKind.argcount, List.length_nil, List.length_cons] at hlen <;>
      simp only [wellArityList, Bool.and_eq_true, Bool.and_true] at hwl
  all_goals
    first
      | exact absurd hlen (by omega)
      | ((refine lem_render_shape_pre _ ?_ ?_ a0 (lem_render_arg_isSome a0 hwl)) <;> rfl)
      | ((refine lem_render_shape_func _ ?_ ?_ ?_ a0 (lem_render_arg_isSome a0 hwl)) <;> rfl)
      | ((refine lem_render_shape_binary _ ?_ ?_ ?_ a0 a1 (lem_render_arg_isSome a0 hwl.1)
            (lem_render_arg_isSome a1 hwl.2)) <;> rfl)

/-- Shared fact: an expression satisfying the arity invariant renders
without hitting any panic. -/
theorem lem_render_arg_isSome (e : OpArgument) (h : wellArityArg e = true) :
    e.render.isSome = true := by
  obtain ⟨v, c⟩ := e
  cases v with
  | Op o => exact lem_render_op_isSome o h
  | Leaf val => rfl

end

/-- Shared fact: definitional unfolding of the renderer at a zero-argument
node. -/
theorem lem_render_mk0 (k : OperationKind) :
    Operation.render (.mk k []) =
      (if (0 : Nat) ≠ k.argcount then none
       else if k.isPrefixForm then none
       else if k.isInfixForm then
         if k.argcount ≠ 2 then none else none
       else
         Option.bind (renderCommaSep [])
           (fun s => some (k.symbol ++ "(" ++ s ++ ")"))) := rfl

/-- Shared fact: definitional unfolding of the renderer at a node with three
or more arguments. -/
theorem lem_render_mk3 (k : OperationKind) (a0 a1 a2 : OpArgument) (rest : List OpArgument) :
    Operation.render (.mk k (a0 :: a1 :: a2 :: rest)) =
      (if (a0 :: a1 :: a2 :: rest).length ≠ k.argcount then none
       else if k.isPrefixForm then
        (match (match a0.value with | .Op o => k.cmp o.op | _ => Ordering.gt) with
         | .lt | .eq => Option.bind a0.render (fun s => some (k.symbol ++ "(" ++ s ++ ")"))
         | .gt => Option.bind a0.render (fun s => some (k.symbol ++ s)))
       else if k.isInfixForm then
         if k.argcount ≠ 2 then none else none
       else
         Option.bind (renderCommaSep (a0 :: a1 :: a2 :: rest))
           (fun s => some (k.symbol ++ "(" ++ s ++ ")"))) := rfl

/-- Shared fact: `construct_oparg` preserves the arity invariant. -/
theorem lem_construct_wellArity (a : OpArgument) :
    wellArityArg (construct_oparg a) = wellArityArg a := by
  obtain ⟨v, c⟩ := a
  rfl

/-- Shared fact: every expression reachable through the public builders
satisfies the arity invariant. -/
theorem lem_built_wellArity (e : OpArgument) (h : Built e) : wellArityArg e = true := by
  induction h with
  | var s => rfl
  | value v => rfl
  | add ha hb iha ihb =>
    simp only [OpArgument.add, wellArityArg, wellArityKind, wellArityList, Bool.and_eq_true]
    exact ⟨rfl, iha, ihb, trivial⟩
  | sub ha hb iha ihb =>
    simp only [OpArgument.sub, wellArityArg, wellArityKind, wellArityList, Bool.and_eq_true]
    exact ⟨rfl, iha, ihb, trivial⟩
  | mul ha hb iha ihb =>
    simp only [OpArgument.mul, wellArityArg, wellArityKind, wellArityList, Bool.and_eq_true]
    exact ⟨rfl, iha, ihb, trivial⟩
  | div ha hb iha ihb =>
    simp only [OpArgument.div, wellArityArg, wellArityKind, wellArityList, Bool.and_eq_true]
    exact ⟨rfl, iha, ihb, trivial⟩
  | neg ha iha =>
    simp only [OpArgument.neg, wellArityArg, wellArityKind, wellArityList, Bool.and_eq_true]
    exact ⟨rfl, iha, trivial⟩
  | pow ha hb iha ihb =>
    simp only [OpArgument.pow, wellArityArg, wellArityKind, wellArityList, Bool.and_eq_true]
    exact ⟨rfl, (lem_construct_wellArity _).trans iha, (lem_construct_wellArity _).trans ihb,
      trivial⟩
  | ln ha iha =>
    simp only [OpArgument.ln, wellArityArg, wellArityKind, wellArityList, Bool.and_eq_true]
    exact ⟨rfl, (lem_construct_wellArity _).trans iha, trivial⟩
  | exp ha iha =>
    simp only [OpArgument.exp, wellArityArg, wellArityKind, wellArityList, Bool.and_eq_true]
    exact ⟨rfl, (lem_construct_wellArity _).trans iha, trivial⟩
  | sin ha iha =>
    simp only [OpArgument.sin, wellArityArg, wellArityKind, wellArityList, Bool.and_eq_true]
    exact ⟨rfl, (lem_construct_wellArity _).trans iha, trivial⟩
  | cos ha iha =>
    simp only [OpArgument.cos, wellArityArg, wellArityKind, wellArityList, Bool.and_eq_true]
    exact ⟨rfl, (lem_construct_wellArity _).trans iha, trivial⟩
  | ref ha iha => rw [lem_construct_wellArity]; exact iha

/-- C6: rendering an `Operation` whose stored argument count differs from its
kind's declared `argcount()` hits the fatal `panic!`; and every expression
built solely through the public builders satisfies the arity invariant at
every node, so rendering it never hits that panic (it succeeds outright). -/
theorem C6_arity_mismatch_fatal_builders_safe :
    (∀ o : Operation, o.arguments.length ≠ o.op.argcount → o.render = none) ∧
      (∀ e : OpArgument, Built e →
        wellArityArg e = true ∧ e.render.isSome = true) := by
  constructor
  · intro o h
    obtain ⟨k, args⟩ := o
    simp only [Operation.arguments, Operation.op] at h
    rcases args with _ | ⟨a0, _ | ⟨a1, _ | ⟨a2, rest⟩⟩⟩
    · rw [lem_render_mk0, if_pos (by simpa using h)]
    · rw [lem_render_mk1, if_pos (by simpa using h)]
    · rw [lem_render_mk2, if_pos (by simpa using h)]
    · rw [lem_render_mk3, if_pos (by simpa using h)]
  · intro e h
    have hw := lem_built_wellArity e h
    exact ⟨hw, lem_render_arg_isSome e hw⟩

/-- C6 witness: an `Addition` node holding one argument renders to the panic,
and the concretely built `variable("x") + variable("y")` satisfies the
invariant and renders successfully. -/
theorem C6_witness :
    ((Operation.mk .Addition [variableLeaf "x"]).arguments.length ≠
        (Operation.mk .Addition [variableLeaf "x"]).op.argcount) ∧
      (Operation.mk .Addition [variableLeaf "x"]).render = none ∧
      wellArityArg ((variableLeaf "x").add (variableLeaf "y")) = true ∧
      ((variableLeaf "x").add (variableLeaf "y")).render.isSome = true := by
  refine ⟨by decide, C6_arity_mismatch_fatal_builders_safe.1 _ (by decide), ?_⟩
  exact C6_arity_mismatch_fatal_builders_safe.2 _ (Built.add (Built.var "x") (Built.var "y"))

/-- Specification-side parenthesisation rule, written from the spec's words
(§4.5): an operator child of an infix operation is printed bare exactly when
its precedence class is strictly greater than the parent's, or exactly equal
and on the side matching the parent's associativity (left child of a
Left-associative parent, right child of a Right-associative parent); leaf
children are always bare. -/
def specChildBare (parent : OperationKind) (child : OpArgument) (leftSide : Bool) : Bool :=
  match child.value with
  | .Op o =>
    decide (precClass parent < precClass o.op) ||
      (decide (precClass o.op = precClass parent) &&
        (if leftSide then parent.associativity == .Left else parent.associativity == .Right))
  | .Leaf _ => true

/-- Shared fact: the renderer's left-operand decision agrees with the
spec-side rule. -/
theorem lem_branch_left (k : OperationKind) (a0 : OpArgument) :
    (match (match a0.value with | .Op o => k.cmp o.op | _ => Ordering.gt) with
     | .eq =>
       if k.associativity = .Left then a0.render
       else Option.bind a0.render (fun s => some ("(" ++ s ++ ")"))
     | .gt => a0.render
     | .lt => Option.bind a0.render (fun s => some ("(" ++ s ++ ")"))) =
      (if specChildBare k a0 true then a0.render
       else Option.bind a0.render (fun s => some ("(" ++ s ++ ")"))) := by
  obtain ⟨v0, c0⟩ := a0
  cases v0 with
  | Leaf val => rfl
  | Op o0 =>
    obtain ⟨k0, args0⟩ := o0
    cases k <;> cases k0 <;> rfl

/-- Shared fact: the renderer's right-operand decision agrees with the
spec-side rule. -/
theorem lem_branch_right (k : OperationKind) (a1 : OpArgument) :
    (match (match a1.value with | .Op o => k.cmp o.op | _ => Ordering.gt) with
     | .eq =>
       if k.associativity = .Right then a1.render
       else Option.bind a1.render (fun s => some ("(" ++ s ++ ")"))
     | .gt => a1.render
     | .lt => Option.bind a1.render (fun s => some ("(" ++ s ++ ")"))) =
      (if specChildBare k a1 false then a1.render
       else Option.bind a1.render (fun s => some ("(" ++ s ++ ")"))) := by
  obtain ⟨v1, c1⟩ := a1
  cases v1 with
  | Leaf val => rfl
  | Op o1 =>
    obtain ⟨k1, args1⟩ := o1
    cases k <;> cases k1 <;> rfl

/-- C2: when rendering an infix operation, a child is printed without
surrounding parentheses exactly when the spec-side rule `specChildBare`
allows it: strictly greater precedence class, or exactly equal precedence
class on the side matching the parent's associativity; equal precedence on
the non-matching side or strictly lower precedence is parenthesised, and
leaf children are never parenthesised. -/
theorem C2_renderer_paren_rule (k : OperationKind) (a0 a1 : OpArgument)
    (h : k.isInfixForm = true) :
    Operation.render (.mk k [a0, a1]) =
      Option.bind a0.render (fun l =>
        Option.bind a1.render (fun r =>
          some ((if specChildBare k a0 true then l else "(" ++ l ++ ")") ++ k.symbol ++
            (if specChildBare k a1 false then r else "(" ++ r ++ ")")))) := by
  have h2 : k.argcount = 2 := by revert h; cases k <;> decide
  have hp : k.isPrefixForm = false := by revert h; cases k <;> decide
  rw [lem_render_mk2]
  simp only [h, h2, hp, ne_eq, not_true_eq_false, Bool.false_eq_true, if_false, if_true,
    ite_true, ite_false]
  rw [lem_branch_left, lem_branch_right]
  by_cases hb0 : specChildBare k a0 true <;> by_cases hb1 : specChildBare k a1 false <;>
    cases hr0 : a0.render <;> cases hr1 : a1.render <;>
      simp [hb0, hb1, hr0, hr1]

/-- C2 witness: instantiated at the Multiplication node whose left child is
the addition `x+y` (equal-or-lower class, parenthesised) and whose right
child is the leaf `z` (never parenthesised). -/
theorem C2_witness :
    OperationKind.isInfixForm .Multiplication = true ∧
      Operation.render
          (.mk .Multiplication [(variableLeaf "x").add (variableLeaf "y"), variableLeaf "z"]) =
        Option.bind ((variableLeaf "x").add (variableLeaf "y")).render (fun l =>
          Option.bind (variableLeaf "z").render (fun r =>
            some
              ((if specChildBare .Multiplication ((variableLeaf "x").add (variableLeaf "y")) true
                  then l
                  else "(" ++ l ++ ")") ++
                OperationKind.symbol .Multiplication ++
                (if specChildBare .Multiplication (variableLeaf "z") false then r
                  else "(" ++ r ++ ")")))) := by
  exact ⟨rfl, C2_renderer_paren_rule .Multiplication _ _ rfl⟩
